import Mathlib

/-!
Shallow embedding of the word-frequency pipeline of `src/word.py`
(Word_Cloud_app): tokenisation by Python `str.split()`, stopword
filtering (`filter_stopwords`), frequency counting (`word_count`),
the MIME-type dispatch, the UTF-8 decoding of plain-text uploads
(`read_txt`), and the CSV export of the frequency table, together
with theorems settling the specification claims about them.

Python strings are modelled as Lean `String` (a list of Unicode scalar
values), byte streams as `List Nat`, and Python sets of strings as
`List String` with membership up to `List.contains`.
-/

/-- Python `str.isspace` for a single code point: ASCII whitespace,
the C1 separators, and the Unicode space separators.  `str.split()`
with no argument splits on runs of exactly these characters. -/
def isPySpace (c : Char) : Bool :=
  c.toNat = 32 || (9 ≤ c.toNat && c.toNat ≤ 13) ||
  (28 ≤ c.toNat && c.toNat ≤ 31) || c.toNat = 133 || c.toNat = 160 ||
  c.toNat = 5760 || (8192 ≤ c.toNat && c.toNat ≤ 8202) ||
  c.toNat = 8232 || c.toNat = 8233 || c.toNat = 8239 ||
  c.toNat = 8287 || c.toNat = 12288

/-- Accumulator-style splitter over code points: `acc` holds the
(reversed) current token.  Runs of whitespace are skipped and empty
tokens are never produced, exactly like Python `str.split()`. -/
def wtoksAux : List Char → List Char → List (List Char)
  | [], acc => if acc.isEmpty then [] else [acc.reverse]
  | c :: cs, acc =>
    if isPySpace c then
      if acc.isEmpty then wtoksAux cs [] else acc.reverse :: wtoksAux cs []
    else
      wtoksAux cs (c :: acc)

/-- Whitespace-run tokenisation of a list of code points. -/
def wtoksL (cs : List Char) : List (List Char) :=
  wtoksAux cs []

/-- Python `text.split()` (no argument): split on runs of whitespace,
discarding empty tokens. -/
def pySplit (s : String) : List String :=
  (wtoksL s.data).map String.mk

/-- `" ".join` at the level of code-point lists. -/
def joinSpL : List (List Char) → List Char
  | [] => []
  | [w] => w
  | w :: ws => w ++ ' ' :: joinSpL ws

/-- Python `" ".join(words)`. -/
def pyJoin (ws : List String) : String :=
  String.mk (joinSpL (ws.map String.data))

/-- Python `str.lower` on one code point, on the ASCII range (every
stopword and every concrete input in this development is ASCII). -/
def pyLowerChar (c : Char) : Char :=
  if 65 ≤ c.toNat && c.toNat ≤ 90 then Char.ofNat (c.toNat + 32) else c

/-- A token is good when it is nonempty and contains no whitespace:
exactly the shape of every token produced by `pySplit`. -/
def GoodTok (w : String) : Prop :=
  w.data ≠ [] ∧ ∀ c ∈ w.data, isPySpace c = false

/-- Python `word.lower()`. -/
def pyLower (s : String) : String :=
  String.mk (s.data.map pyLowerChar)

/-- Modelled from the spec: the built-in `STOPWORDS` set imported from
the external `wordcloud` library is not part of this repository; the
spec describes it as "a fixed, language-specific (English) built-in
list".  This is that list (the familiar English stopword list shipped
with the library). -/
def STOPWORDS : List String :=
  ["a", "about", "above", "after", "again", "against", "all", "also",
   "am", "an", "and", "any", "are", "aren't", "as", "at", "be",
   "because", "been", "before", "being", "below", "between", "both",
   "but", "by", "can", "can't", "cannot", "com", "could", "couldn't",
   "did", "didn't", "do", "does", "doesn't", "doing", "don't", "down",
   "during", "each", "else", "ever", "few", "for", "from", "further",
   "get", "had", "hadn't", "has", "hasn't", "have", "haven't",
   "having", "he", "he'd", "he'll", "he's", "hence", "her", "here",
   "here's", "hers", "herself", "him", "himself", "his", "how",
   "how's", "however", "http", "i", "i'd", "i'll", "i'm", "i've",
   "if", "in", "into", "is", "isn't", "it", "it's", "its", "itself",
   "just", "k", "let's", "like", "me", "more", "most", "mustn't",
   "my", "myself", "no", "nor", "not", "of", "off", "on", "once",
   "only", "or", "other", "otherwise", "ought", "our", "ours",
   "ourselves", "out", "over", "own", "r", "same", "shall", "shan't",
   "she", "she'd", "she'll", "she's", "should", "shouldn't", "since",
   "so", "some", "such", "than", "that", "that's", "the", "their",
   "theirs", "them", "themselves", "then", "there", "there's",
   "therefore", "these", "they", "they'd", "they'll", "they're",
   "they've", "this", "those", "through", "to", "too", "under",
   "until", "up", "very", "was", "wasn't", "we", "we'd", "we'll",
   "we're", "we've", "were", "weren't", "what", "what's", "when",
   "when's", "where", "where's", "which", "while", "who", "who's",
   "whom", "why", "why's", "with", "won't", "would", "wouldn't",
   "www", "you", "you'd", "you'll", "you're", "you've", "your",
   "yours", "yourself", "yourselves"]

/-- `src/word.py` lines 28-32: split the text on whitespace, build
`all_stopwords = STOPWORDS.union(set(additional_stopwords))`, keep the
words whose lowercased form is not in that union, and rejoin the
survivors with single spaces. -/
def filter_stopwords (text : String) (additional_stopwords : List String) : String :=
  pyJoin ((pySplit text).filter
    (fun w => !(STOPWORDS.contains (pyLower w) ||
                additional_stopwords.contains (pyLower w))))

/-- Insert a (word, count) row in front of the first row with a
strictly smaller count: one step of a descending-by-count sort. -/
def insertDesc (p : String × Nat) : List (String × Nat) → List (String × Nat)
  | [] => [p]
  | q :: qs => if q.2 < p.2 then p :: q :: qs else q :: insertDesc p qs

/-- Sort the frequency rows by descending count (`sort_values('Count',
ascending=False)`).  The tie order of the pandas quicksort is
unspecified; this embedding fixes one order satisfying the same
descending-by-count contract. -/
def sortByCountDesc : List (String × Nat) → List (String × Nat)
  | [] => []
  | p :: ps => insertDesc p (sortByCountDesc ps)

/-- `src/word.py` lines 71-72 (and 116-117): split the text, group the
tokens by exact string equality into (word, count) rows, and order the
rows by descending count. -/
def word_count (text : String) : List (String × Nat) :=
  let ws := pySplit text
  sortByCountDesc (ws.dedup.map (fun w => (w, ws.count w)))

/-- `src/word.py` lines 79-82: the sidebar checkbox branch.  With the
checkbox on, `all_stopwords = STOPWORDS.union(set(additional))`; with
it off, `all_stopwords = set(additional)`.  Set union is modelled by
list append (membership-equivalent). -/
def appAllStopwords (useStd : Bool) (additional : List String) : List String :=
  if useStd then STOPWORDS ++ additional else additional

/-- `src/word.py` line 85: `text = filter_stopwords(text, all_stopwords)`,
where `all_stopwords` comes from the checkbox branch above. -/
def appFilteredText (text : String) (useStd : Bool) (additional : List String) : String :=
  filter_stopwords text (appAllStopwords useStd additional)

/-- `src/word.py` lines 87-118: `if text:` on the filtered text (Python
truthiness: the string is nonempty).  On the truthy branch the word
cloud is generated from the filtered text and the post-filter word
count table is computed; otherwise both steps are skipped. -/
def appProcess (text : String) (useStd : Bool) (additional : List String) :
    Option (String × List (String × Nat)) :=
  if appFilteredText text useStd additional = "" then none
  else some (appFilteredText text useStd additional,
             word_count (appFilteredText text useStd additional))

/-- Outcome of the MIME-type dispatch: which reader runs, or the halt
of the final `else` branch (`st.error` followed by `st.stop()`). -/
inductive Dispatch : Type
  | useTxt
  | usePdf
  | useDocx
  | halted
deriving DecidableEq

/-- `src/word.py` lines 60-68: the if/elif chain on
`uploaded_file.type`.  The final `else` shows an error message and
calls `st.stop()`, so no extraction, counting or rendering runs for
that upload. -/
def mimeDispatch (t : String) : Dispatch :=
  if t = "text/plain" then Dispatch.useTxt
  else if t = "application/pdf" then Dispatch.usePdf
  else if t = "application/vnd.openxmlformats-officedocument.wordprocessingml.document" then
    Dispatch.useDocx
  else Dispatch.halted

/-- A byte in the UTF-8 continuation range 0x80-0xBF. -/
def isCont (b : Nat) : Bool := 128 ≤ b && b ≤ 191

/-- Code point denoted by a two-byte UTF-8 sequence. -/
def cp2 (b c1 : Nat) : Nat := (b - 192) * 64 + (c1 - 128)

/-- Code point denoted by a three-byte UTF-8 sequence. -/
def cp3 (b c1 c2 : Nat) : Nat := (b - 224) * 4096 + (c1 - 128) * 64 + (c2 - 128)

/-- Code point denoted by a four-byte UTF-8 sequence. -/
def cp4 (b c1 c2 c3 : Nat) : Nat :=
  (b - 240) * 262144 + (c1 - 128) * 4096 + (c2 - 128) * 64 + (c3 - 128)

/-- Three-byte code point check: not overlong and not a surrogate. -/
def isScalar3 (n : Nat) : Bool := 2048 ≤ n && !(55296 ≤ n && n ≤ 57343)

/-- Four-byte code point check: in the supplementary range. -/
def isSupp (n : Nat) : Bool := 65536 ≤ n && n ≤ 1114111

/-- Decode one code point from the front of a byte list, strictly (no
overlong forms, no surrogates, no code points beyond U+10FFFF), exactly
as the strict "utf-8" codec of Python rejects malformed input. -/
def decodeOne : List Nat → Option (Nat × List Nat)
  | [] => none
  | b :: rest =>
    if b < 128 then some (b, rest)
    else if b < 194 then none
    else if b < 224 then
      match rest with
      | c1 :: rest2 => if isCont c1 then some (cp2 b c1, rest2) else none
      | [] => none
    else if b < 240 then
      match rest with
      | c1 :: c2 :: rest3 =>
        if isCont c1 && isCont c2 && isScalar3 (cp3 b c1 c2) then
          some (cp3 b c1 c2, rest3)
        else none
      | _ => none
    else if b < 245 then
      match rest with
      | c1 :: c2 :: c3 :: rest4 =>
        if isCont c1 && isCont c2 && isCont c3 && isSupp (cp4 b c1 c2 c3) then
          some (cp4 b c1 c2 c3, rest4)
        else none
      | _ => none
    else none

/-- Repeatedly decode code points; the fuel only bounds the recursion
(each step consumes at least one byte, so `l.length` is enough). -/
def utf8DecodeAux : Nat → List Nat → Option (List Nat)
  | 0, l => if l = [] then some [] else none
  | fuel+1, l =>
    if l = [] then some []
    else
      match decodeOne l with
      | none => none
      | some (cp, rem) => (utf8DecodeAux fuel rem).map (fun cps => cp :: cps)

/-- Strict UTF-8 decoding of a whole byte list; `none` models the
`UnicodeDecodeError` of Python. -/
def utf8Decode (l : List Nat) : Option (List Nat) := utf8DecodeAux l.length l

/-- UTF-8 encoding of one Unicode scalar value. -/
def utf8EncodeChar (c : Nat) : List Nat :=
  if c < 128 then [c]
  else if c < 2048 then [192 + c / 64, 128 + c % 64]
  else if c < 65536 then [224 + c / 4096, 128 + c / 64 % 64, 128 + c % 64]
  else [240 + c / 262144, 128 + c / 4096 % 64, 128 + c / 64 % 64, 128 + c % 64]

/-- UTF-8 encoding of a sequence of Unicode scalar values. -/
def utf8Encode (cps : List Nat) : List Nat := (cps.map utf8EncodeChar).flatten

/-- A Unicode scalar value: at most U+10FFFF and not a surrogate. -/
def validCp (c : Nat) : Bool := c ≤ 1114111 && !(55296 ≤ c && c ≤ 57343)

/-- A byte list is valid UTF-8 when it is the encoding of some
sequence of Unicode scalar values. -/
def ValidUtf8 (bs : List Nat) : Prop :=
  ∃ cps : List Nat, cps.all validCp = true ∧ utf8Encode cps = bs

/-- The decode failure of the plain-text reader
(`UnicodeDecodeError` in Python). -/
inductive ReadError : Type
  | decodeError
deriving DecidableEq

/-- `src/word.py` lines 14-15: `file.getvalue().decode("utf-8")` on the
raw uploaded bytes; the raised `UnicodeDecodeError` is modelled as
`Except.error`. -/
def read_txt (fileBytes : List Nat) : Except ReadError (List Nat) :=
  match utf8Decode fileBytes with
  | some cps => Except.ok cps
  | none => Except.error ReadError.decodeError

/-- Characters that force quoting under minimal CSV quoting. -/
def csvNeedsQuote (w : String) : Bool :=
  w.data.any (fun c => c = ',' || c = '"' || c = '\n' || c = '\r')

/-- Double every quote character, for the inside of a quoted field. -/
def csvEscapeQuotesL : List Char → List Char
  | [] => []
  | c :: cs =>
    if c = '"' then '"' :: '"' :: csvEscapeQuotesL cs else c :: csvEscapeQuotesL cs

/-- One CSV field under minimal quoting. -/
def csvField (w : String) : List Char :=
  if csvNeedsQuote w then '"' :: (csvEscapeQuotesL w.data ++ ['"']) else w.data

/-- Decimal digits of a positive number, least significant first; the
fuel only bounds the recursion. -/
def natDigitsRev : Nat → Nat → List Nat
  | 0, _ => []
  | fuel+1, n => if n = 0 then [] else n % 10 :: natDigitsRev fuel (n / 10)

/-- The digit character of one decimal digit. -/
def digitChar (d : Nat) : Char := Char.ofNat (48 + d)

/-- Decimal notation of a number, as printed in the CSV. -/
def natToStrL (n : Nat) : List Char :=
  if n = 0 then ['0'] else ((natDigitsRev n n).reverse).map digitChar

/-- One data row of the exported CSV: field, comma, count, newline. -/
def csvRow (p : String × Nat) : List Char :=
  csvField p.1 ++ ',' :: (natToStrL p.2 ++ ['\n'])

/-- `src/word.py` lines 40-43: `df.to_csv(index=False)` on the word
count table: the header `Word,Count` and one row per table entry, with
minimal CSV quoting and newline-terminated records. -/
def to_csv (tbl : List (String × Nat)) : String :=
  String.mk ("Word,Count\n".data ++ (tbl.map csvRow).flatten)

/-- Parse the rest of a quoted field (after the opening quote); a
doubled quote stands for one literal quote. -/
def parseQuotedTail : List Char → Option (List Char × List Char)
  | [] => none
  | c :: rest =>
    if c = '"' then
      match rest with
      | c2 :: rest2 =>
        if c2 = '"' then (parseQuotedTail rest2).map (fun p => ('"' :: p.1, p.2))
        else some ([], rest)
      | [] => some ([], [])
    else (parseQuotedTail rest).map (fun p => (c :: p.1, p.2))

/-- Field and record separators of the CSV format. -/
def csvSepChar (c : Char) : Bool := c = ',' || c = '\n' || c = '\r'

/-- Parse one field: quoted when it starts with a quote, bare (up to
the next separator) otherwise. -/
def parseField (cs : List Char) : Option (List Char × List Char) :=
  match cs with
  | [] => some ([], [])
  | c :: _ =>
    if c = '"' then parseQuotedTail cs.tail
    else some (cs.takeWhile (fun d => !csvSepChar d),
               cs.dropWhile (fun d => !csvSepChar d))

/-- Parse one record: comma-separated fields up to a newline or the
end of the input; the fuel bounds the number of fields. -/
def parseRecord : Nat → List Char → Option (List String × List Char)
  | 0, _ => none
  | fuel+1, cs =>
    match parseField cs with
    | none => none
    | some (f, rest) =>
      match rest with
      | ',' :: rest2 => (parseRecord fuel rest2).map (fun p => (String.mk f :: p.1, p.2))
      | '\n' :: rest2 => some ([String.mk f], rest2)
      | [] => some ([String.mk f], [])
      | _ => none

/-- Parse newline-terminated records; the fuel bounds their number. -/
def parseRecordsAux : Nat → List Char → Option (List (List String))
  | 0, cs => if cs = [] then some [] else none
  | fuel+1, cs =>
    if cs = [] then some []
    else
      match parseRecord cs.length cs with
      | none => none
      | some (r, rest) => (parseRecordsAux fuel rest).map (fun rs => r :: rs)

/-- Parse a CSV text into its records. -/
def parseCsv (s : String) : Option (List (List String)) :=
  parseRecordsAux s.data.length s.data

/-- Decimal evaluation of a digit string, most significant first. -/
def strToNatAux : List Char → Nat → Option Nat
  | [], acc => some acc
  | c :: cs, acc =>
    if 48 ≤ c.toNat && c.toNat ≤ 57 then strToNatAux cs (acc * 10 + (c.toNat - 48))
    else none

/-- Parse a nonempty all-digit string as a number. -/
def strToNat (s : String) : Option Nat :=
  if s.data = [] then none else strToNatAux s.data 0

/-- Read parsed CSV records back into a word-to-count table. -/
def csvTableOfRecords : List (List String) → Option (List (String × Nat))
  | [] => some []
  | r :: rs =>
    match r with
    | [w, cstr] =>
      match strToNat cstr, csvTableOfRecords rs with
      | some n, some tbl => some ((w, n) :: tbl)
      | _, _ => none
    | _ => none

/-- Parse an exported CSV back into a table: the header row must be
`Word,Count` and every following record must be a word and a count. -/
def parseCsvTable (s : String) : Option (List (String × Nat)) :=
  match parseCsv s with
  | some (["Word", "Count"] :: records) => csvTableOfRecords records
  | _ => none

/-- Value of a little-endian digit list. -/
def ofDigitsRev : List Nat → Nat
  | [] => 0
  | d :: ds => d + 10 * ofDigitsRev ds


theorem stringMk_data (s : String) : String.mk s.data = s := rfl

theorem isPySpace_space : isPySpace ' ' = true := by decide

theorem wtoksAux_append (w : List Char) :
    ∀ (cs acc : List Char), (∀ c ∈ w, isPySpace c = false) →
      wtoksAux (w ++ cs) acc = wtoksAux cs (w.reverse ++ acc) := by
  induction w with
  | nil => intro cs acc _; simp
  | cons c w ih =>
      intro cs acc hw
      have hc : isPySpace c = false := hw c (by simp)
      have hrest : ∀ d ∈ w, isPySpace d = false := fun d hd => hw d (by simp [hd])
      simp only [List.cons_append, wtoksAux, hc, Bool.false_eq_true, if_false,
        List.reverse_cons, List.append_assoc, List.singleton_append]
      exact ih cs (c :: acc) hrest

theorem wtoksAux_good :
    ∀ (cs acc : List Char), (∀ c ∈ acc, isPySpace c = false) →
      ∀ w ∈ wtoksAux cs acc, w ≠ [] ∧ ∀ c ∈ w, isPySpace c = false := by
  intro cs
  induction cs with
  | nil =>
      intro acc hacc w hw
      by_cases h : acc.isEmpty
      · simp [wtoksAux, h] at hw
      · have hE : acc.isEmpty = false := Bool.eq_false_iff.mpr h
        simp [wtoksAux, hE] at hw
        subst hw
        constructor
        · simp only [ne_eq, List.reverse_eq_nil_iff]
          intro h0; rw [h0] at h; exact h rfl
        · intro c hc; exact hacc c (List.mem_reverse.mp hc)
  | cons c cs ih =>
      intro acc hacc w hw
      by_cases hsp : isPySpace c
      · by_cases h : acc.isEmpty
        · simp [wtoksAux, hsp, h] at hw
          exact ih [] (by simp) w hw
        · have hE : acc.isEmpty = false := Bool.eq_false_iff.mpr h
          simp [wtoksAux, hsp, hE] at hw
          rcases hw with hw | hw
          · subst hw
            constructor
            · simp only [ne_eq, List.reverse_eq_nil_iff]
              intro h0; rw [h0] at h; exact h rfl
            · intro d hd; exact hacc d (List.mem_reverse.mp hd)
          · exact ih [] (by simp) w hw
      · have hE : isPySpace c = false := Bool.eq_false_iff.mpr hsp
        simp [wtoksAux, hE] at hw
        refine ih (c :: acc) ?_ w hw
        intro d hd
        rcases List.mem_cons.mp hd with hd | hd
        · subst hd; exact hE
        · exact hacc d hd

theorem pySplit_good (t : String) : ∀ w ∈ pySplit t, GoodTok w := by
  intro w hw
  simp only [pySplit, wtoksL, List.mem_map] at hw
  obtain ⟨l, hl, rfl⟩ := hw
  have := wtoksAux_good t.data [] (by simp) l hl
  exact ⟨this.1, this.2⟩

theorem wtoksL_joinSpL :
    ∀ ws : List (List Char),
      (∀ w ∈ ws, w ≠ [] ∧ ∀ c ∈ w, isPySpace c = false) →
      wtoksL (joinSpL ws) = ws := by
  intro ws
  induction ws with
  | nil => intro _; rfl
  | cons w ws ih =>
      intro h
      have hw := h w (by simp)
      have hwrev : w.reverse.isEmpty = false := by
        rcases w with _ | ⟨c, w⟩
        · exact absurd rfl hw.1
        · simp [List.isEmpty_iff]
      cases ws with
      | nil =>
          simp only [joinSpL, wtoksL]
          rw [show w = w ++ [] from (List.append_nil w).symm,
            wtoksAux_append w [] [] hw.2]
          simp [wtoksAux, hwrev]
      | cons w2 ws2 =>
          have hjoin : joinSpL (w :: w2 :: ws2) = w ++ ' ' :: joinSpL (w2 :: ws2) := rfl
          rw [wtoksL, hjoin, wtoksAux_append w _ [] hw.2]
          simp only [List.append_nil, wtoksAux, isPySpace_space, if_true, hwrev,
            Bool.false_eq_true, if_false, List.reverse_reverse]
          rw [← wtoksL]
          rw [ih (fun x hx => h x (by simp [hx]))]

theorem pySplit_pyJoin (ws : List String) (h : ∀ w ∈ ws, GoodTok w) :
    pySplit (pyJoin ws) = ws := by
  unfold pySplit pyJoin
  have hdata : ∀ l ∈ ws.map String.data, l ≠ [] ∧ ∀ c ∈ l, isPySpace c = false := by
    intro l hl
    obtain ⟨w, hw, rfl⟩ := List.mem_map.mp hl
    exact (h w hw)
  rw [show (String.mk (joinSpL (ws.map String.data))).data
        = joinSpL (ws.map String.data) from rfl]
  rw [wtoksL_joinSpL (ws.map String.data) hdata]
  rw [List.map_map]
  have : (String.mk ∘ String.data) = id := by
    funext s; exact stringMk_data s
  rw [this, List.map_id]

/-- Re-splitting the output of the stopword filter recovers exactly the
kept tokens: the filter output is the single-space join of the tokens
of the input that survive the stopword test. -/
theorem pySplit_filter_stopwords (t : String) (A : List String) :
    pySplit (filter_stopwords t A) =
      (pySplit t).filter
        (fun w => !(STOPWORDS.contains (pyLower w) ||
                    A.contains (pyLower w))) := by
  unfold filter_stopwords
  apply pySplit_pyJoin
  intro w hw
  exact pySplit_good t w (List.mem_of_mem_filter hw)

theorem filter_stopwords_eq (t : String) (A : List String) :
    filter_stopwords t A =
      pyJoin ((pySplit t).filter
        (fun w => !(STOPWORDS.contains (pyLower w) ||
                    A.contains (pyLower w)))) := rfl

theorem insertDesc_perm (p : String × Nat) :
    ∀ l : List (String × Nat), (insertDesc p l).Perm (p :: l) := by
  intro l
  induction l with
  | nil => exact List.Perm.refl _
  | cons q qs ih =>
      show (if q.2 < p.2 then p :: q :: qs else q :: insertDesc p qs).Perm _
      by_cases h : q.2 < p.2
      · rw [if_pos h]
      · rw [if_neg h]
        exact (ih.cons q).trans (List.Perm.swap p q qs)

theorem sortByCountDesc_perm : ∀ l, (sortByCountDesc l).Perm l := by
  intro l
  induction l with
  | nil => exact List.Perm.refl _
  | cons p ps ih => exact (insertDesc_perm p _).trans (ih.cons p)

theorem insertDesc_sorted (p : String × Nat) :
    ∀ l : List (String × Nat), l.Pairwise (fun a b => b.2 ≤ a.2) →
      (insertDesc p l).Pairwise (fun a b => b.2 ≤ a.2) := by
  intro l
  induction l with
  | nil => intro _; simp [insertDesc]
  | cons q qs ih =>
      intro hs
      rw [List.pairwise_cons] at hs
      show (if q.2 < p.2 then p :: q :: qs else q :: insertDesc p qs).Pairwise _
      by_cases h : q.2 < p.2
      · rw [if_pos h]
        refine List.Pairwise.cons ?_ (List.Pairwise.cons hs.1 hs.2)
        intro b hb
        rcases List.mem_cons.mp hb with rfl | hb
        · exact Nat.le_of_lt h
        · exact Nat.le_trans (hs.1 b hb) (Nat.le_of_lt h)
      · rw [if_neg h]
        refine List.Pairwise.cons ?_ (ih hs.2)
        intro b hb
        have hb2 : b ∈ p :: qs := (insertDesc_perm p qs).mem_iff.mp hb
        rcases List.mem_cons.mp hb2 with rfl | hb2
        · exact Nat.le_of_not_lt h
        · exact hs.1 b hb2

theorem sortByCountDesc_sorted :
    ∀ l : List (String × Nat),
      (sortByCountDesc l).Pairwise (fun a b => b.2 ≤ a.2) := by
  intro l
  induction l with
  | nil => exact List.Pairwise.nil
  | cons p ps ih => exact insertDesc_sorted p _ ih

/-- C10: the `filter_stopwords` function unconditionally removes the
built-in standard stopword list: for every text and every
additional-stopword set, no token of its output lowercases into
`STOPWORDS`, because the function always unions `STOPWORDS` with the
caller-supplied set. -/
theorem standard_stopwords_always_removed (t : String) (A : List String) :
    (pySplit (filter_stopwords t A)).all
      (fun w => !(STOPWORDS.contains (pyLower w))) = true := by
  rw [pySplit_filter_stopwords, List.all_eq_true]
  intro w hw
  have hkeep := (List.mem_filter.mp hw).2
  simp only [Bool.not_eq_true', Bool.or_eq_false_iff] at hkeep
  show (!(STOPWORDS.contains (pyLower w))) = true
  rw [hkeep.1]
  rfl

/-- C4: the stopword filter is idempotent for a fixed stopword set. -/
theorem filter_stopwords_idempotent (t : String) (A : List String) :
    filter_stopwords (filter_stopwords t A) A = filter_stopwords t A := by
  rw [filter_stopwords_eq (filter_stopwords t A) A, pySplit_filter_stopwords,
    List.filter_filter]
  simp only [Bool.and_self]
  exact (filter_stopwords_eq t A).symm

/-- C2 counterexample: with the empty additional-stopword set the
filter still removes the built-in stopword "the", so the output is not
the whitespace-normalised rejoin of the input tokens. -/
theorem empty_set_filter_counterexample :
    filter_stopwords "the cat" [] ≠ pyJoin (pySplit "the cat") ∧
    filter_stopwords "the cat" [] = "cat" ∧
    pyJoin (pySplit "the cat") = "the cat" := by decide

/-- C2 amended: filtering with the empty additional set removes
exactly the tokens whose lowercased form is in the built-in
`STOPWORDS` list; when no token lowercases into that list, the result
is the tokens of the text rejoined on single spaces. -/
theorem empty_set_filter_amended (t : String) :
    filter_stopwords t [] =
      pyJoin ((pySplit t).filter (fun w => !(STOPWORDS.contains (pyLower w)))) ∧
    ((pySplit t).all (fun w => !(STOPWORDS.contains (pyLower w))) = true →
      filter_stopwords t [] = pyJoin (pySplit t)) := by
  have hpred : ∀ w : String,
      (!(STOPWORDS.contains (pyLower w) ||
         ([] : List String).contains (pyLower w)))
        = (!(STOPWORDS.contains (pyLower w))) := by
    intro w; simp
  constructor
  · rw [filter_stopwords_eq]
    simp only [hpred]
  · intro hall
    rw [filter_stopwords_eq]
    simp only [hpred]
    rw [List.filter_eq_self.mpr (List.all_eq_true.mp hall)]

theorem empty_set_filter_amended_witness :
    ((pySplit "cat mat").all
      (fun w => !(STOPWORDS.contains (pyLower w))) = true) ∧
    filter_stopwords "cat mat" [] = pyJoin (pySplit "cat mat") := by
  exact ⟨by decide, (empty_set_filter_amended "cat mat").2 (by decide)⟩

/-- C3: for every non-empty text, the frequency table has one row per
distinct token (exact string equality), each count is the number of
occurrences of its word (hence at least 1), the counts sum to the
number of whitespace-delimited tokens, and the rows are ordered by
descending count. -/
theorem word_count_table_spec (t : String) (h : t ≠ "") :
    ((word_count t).map Prod.fst).Nodup ∧
    (∀ w, w ∈ (word_count t).map Prod.fst ↔ w ∈ pySplit t) ∧
    (∀ p ∈ word_count t, p.2 = (pySplit t).count p.1 ∧ 1 ≤ p.2) ∧
    ((word_count t).map Prod.snd).sum = (pySplit t).length ∧
    (word_count t).Pairwise (fun a b => b.2 ≤ a.2) := by
  have hperm : (word_count t).Perm
      ((pySplit t).dedup.map (fun w => (w, (pySplit t).count w))) :=
    sortByCountDesc_perm _
  have hfst : ((word_count t).map Prod.fst).Perm ((pySplit t).dedup) := by
    have hm := hperm.map Prod.fst
    rwa [List.map_map,
      show Prod.fst ∘ (fun w => (w, (pySplit t).count w)) = id from rfl,
      List.map_id] at hm
  refine ⟨?_, ?_, ?_, ?_, ?_⟩
  · exact hfst.nodup_iff.mpr ((pySplit t).nodup_dedup)
  · intro w
    rw [hfst.mem_iff, List.mem_dedup]
  · intro p hp
    have hp2 := hperm.mem_iff.mp hp
    obtain ⟨w, hw, rfl⟩ := List.mem_map.mp hp2
    exact ⟨rfl, List.count_pos_iff.mpr (List.mem_dedup.mp hw)⟩
  · have hsum := (hperm.map Prod.snd).sum_eq
    rw [List.map_map,
      show Prod.snd ∘ (fun w => (w, (pySplit t).count w))
        = (fun w => (pySplit t).count w) from rfl] at hsum
    rw [hsum, List.sum_map_count_dedup_eq_length]
  · exact sortByCountDesc_sorted _

theorem word_count_table_spec_witness :
    ("a b a" : String) ≠ "" ∧
    (((word_count "a b a").map Prod.fst).Nodup ∧
     (∀ w, w ∈ (word_count "a b a").map Prod.fst ↔ w ∈ pySplit "a b a") ∧
     (∀ p ∈ word_count "a b a", p.2 = (pySplit "a b a").count p.1 ∧ 1 ≤ p.2) ∧
     ((word_count "a b a").map Prod.snd).sum = (pySplit "a b a").length ∧
     (word_count "a b a").Pairwise (fun a b => b.2 ≤ a.2)) :=
  ⟨by decide, word_count_table_spec "a b a" (by decide)⟩

/-- C5: on "the cat sat on the mat the cat ran" the unfiltered table
maps the to 3, cat to 2 and the four remaining words to 1; filtering
with additional stopwords the and on yields "cat sat mat cat ran",
whose table maps cat to 2 and the rest to 1. -/
theorem cat_mat_example_tables :
    List.lookup "the" (word_count "the cat sat on the mat the cat ran") = some 3 ∧
    List.lookup "cat" (word_count "the cat sat on the mat the cat ran") = some 2 ∧
    List.lookup "sat" (word_count "the cat sat on the mat the cat ran") = some 1 ∧
    List.lookup "on" (word_count "the cat sat on the mat the cat ran") = some 1 ∧
    List.lookup "mat" (word_count "the cat sat on the mat the cat ran") = some 1 ∧
    List.lookup "ran" (word_count "the cat sat on the mat the cat ran") = some 1 ∧
    (word_count "the cat sat on the mat the cat ran").length = 6 ∧
    filter_stopwords "the cat sat on the mat the cat ran" ["the", "on"]
      = "cat sat mat cat ran" ∧
    List.lookup "cat" (word_count "cat sat mat cat ran") = some 2 ∧
    List.lookup "sat" (word_count "cat sat mat cat ran") = some 1 ∧
    List.lookup "mat" (word_count "cat sat mat cat ran") = some 1 ∧
    List.lookup "ran" (word_count "cat sat mat cat ran") = some 1 ∧
    (word_count "cat sat mat cat ran").length = 4 := by decide

/-- C1 is a code bug: with the "use standard stopwords" checkbox off
and no additional stopwords, the claim says no word is removed, but
the app still removes the built-in stopword "the", because
`filter_stopwords` re-unions `STOPWORDS` regardless of the checkbox
branch.  The second conjunct evaluates the behaviour the claim
describes (filtering by the additional set alone) on the same input. -/
theorem checkbox_opt_out_defeated :
    appFilteredText "the cat" false [] = "cat" ∧
    pyJoin ((pySplit "the cat").filter
      (fun w => !(([] : List String).contains (pyLower w)))) = "the cat" := by decide

theorem utf8Encode_cons (c : Nat) (cs : List Nat) :
    utf8Encode (c :: cs) = utf8EncodeChar c ++ utf8Encode cs := rfl

theorem utf8EncodeChar_ne_nil (c : Nat) : utf8EncodeChar c ≠ [] := by
  unfold utf8EncodeChar
  split_ifs <;> simp

theorem decodeOne_sound :
    ∀ l p, decodeOne l = some p →
      validCp p.1 = true ∧ l = utf8EncodeChar p.1 ++ p.2 := by
  intro l p h
  obtain ⟨cp, rem⟩ := p
  match l with
  | [] => simp [decodeOne] at h
  | b :: rest =>
    simp only [decodeOne] at h
    by_cases h1 : b < 128
    · rw [if_pos h1] at h
      obtain ⟨rfl, rfl⟩ := Prod.mk.injEq .. ▸ Option.some.inj h
      refine ⟨by simp [validCp]; omega, ?_⟩
      simp [utf8EncodeChar, h1]
    · rw [if_neg h1] at h
      by_cases h2 : b < 194
      · rw [if_pos h2] at h; exact absurd h (by simp)
      · rw [if_neg h2] at h
        by_cases h3 : b < 224
        · rw [if_pos h3] at h
          match rest with
          | [] => exact absurd h (by simp)
          | c1 :: rest2 =>
            replace h : (if isCont c1 = true then some (cp2 b c1, rest2)
                else none) = some (cp, rem) := h
            by_cases hc : isCont c1
            · rw [if_pos hc] at h
              obtain ⟨rfl, rfl⟩ := Prod.mk.injEq .. ▸ Option.some.inj h
              simp only [isCont, Bool.and_eq_true, decide_eq_true_eq] at hc
              constructor
              · simp [validCp, cp2]; omega
              · have hv : ¬ cp2 b c1 < 128 := by simp [cp2]; omega
                have hv2 : cp2 b c1 < 2048 := by simp [cp2]; omega
                simp only [utf8EncodeChar, hv, hv2, if_false, if_true, ite_true, ite_false]
                have e1 : 192 + cp2 b c1 / 64 = b := by simp [cp2]; omega
                have e2 : 128 + cp2 b c1 % 64 = c1 := by simp [cp2]; omega
                rw [e1, e2]
                rfl
            · rw [if_neg hc] at h; exact absurd h (by simp)
        · rw [if_neg h3] at h
          by_cases h4 : b < 240
          · rw [if_pos h4] at h
            match rest with
            | [] => exact absurd h (by simp)
            | [c1] => exact absurd h (by simp)
            | c1 :: c2 :: rest3 =>
              replace h : (if (isCont c1 && isCont c2 && isScalar3 (cp3 b c1 c2)) = true
                  then some (cp3 b c1 c2, rest3) else none) = some (cp, rem) := h
              by_cases hc : isCont c1 && isCont c2 && isScalar3 (cp3 b c1 c2)
              · rw [if_pos hc] at h
                obtain ⟨rfl, rfl⟩ := Prod.mk.injEq .. ▸ Option.some.inj h
                simp only [isCont, isScalar3, Bool.and_eq_true, Bool.not_eq_true',
                  Bool.and_eq_false_iff, decide_eq_true_eq, decide_eq_false_iff_not,
                  not_le] at hc
                constructor
                · simp only [validCp, Bool.and_eq_true, Bool.not_eq_true',
                    decide_eq_true_eq, Bool.and_eq_false_iff, decide_eq_false_iff_not,
                    not_le]
                  unfold cp3 at hc ⊢
                  omega
                · have hv : ¬ cp3 b c1 c2 < 128 := by unfold cp3 at hc ⊢; omega
                  have hv2 : ¬ cp3 b c1 c2 < 2048 := by unfold cp3 at hc ⊢; omega
                  have hv3 : cp3 b c1 c2 < 65536 := by unfold cp3 at hc ⊢; omega
                  simp only [utf8EncodeChar, hv, hv2, hv3, if_false, if_true,
                    ite_true, ite_false]
                  have e1 : 224 + cp3 b c1 c2 / 4096 = b := by
                    unfold cp3 at hc ⊢; omega
                  have e2 : 128 + cp3 b c1 c2 / 64 % 64 = c1 := by
                    unfold cp3 at hc ⊢; omega
                  have e3 : 128 + cp3 b c1 c2 % 64 = c2 := by
                    unfold cp3 at hc ⊢; omega
                  rw [e1, e2, e3]
                  rfl
              · rw [if_neg hc] at h; exact absurd h (by simp)
          · rw [if_neg h4] at h
            by_cases h5 : b < 245
            · rw [if_pos h5] at h
              match rest with
              | [] => exact absurd h (by simp)
              | [c1] => exact absurd h (by simp)
              | [c1, c2] => exact absurd h (by simp)
              | c1 :: c2 :: c3 :: rest4 =>
                replace h : (if (isCont c1 && isCont c2 && isCont c3 &&
                      isSupp (cp4 b c1 c2 c3)) = true
                    then some (cp4 b c1 c2 c3, rest4) else none) = some (cp, rem) := h
                by_cases hc : isCont c1 && isCont c2 && isCont c3 && isSupp (cp4 b c1 c2 c3)
                · rw [if_pos hc] at h
                  obtain ⟨rfl, rfl⟩ := Prod.mk.injEq .. ▸ Option.some.inj h
                  simp only [isCont, isSupp, Bool.and_eq_true, decide_eq_true_eq] at hc
                  constructor
                  · simp only [validCp, Bool.and_eq_true, Bool.not_eq_true',
                      decide_eq_true_eq, Bool.and_eq_false_iff, decide_eq_false_iff_not,
                      not_le]
                    unfold cp4 at hc ⊢
                    omega
                  · have hv : ¬ cp4 b c1 c2 c3 < 128 := by unfold cp4 at hc ⊢; omega
                    have hv2 : ¬ cp4 b c1 c2 c3 < 2048 := by unfold cp4 at hc ⊢; omega
                    have hv3 : ¬ cp4 b c1 c2 c3 < 65536 := by unfold cp4 at hc ⊢; omega
                    simp only [utf8EncodeChar, hv, hv2, hv3, if_false, ite_false]
                    have e1 : 240 + cp4 b c1 c2 c3 / 262144 = b := by
                      unfold cp4 at hc ⊢; omega
                    have e2 : 128 + cp4 b c1 c2 c3 / 4096 % 64 = c1 := by
                      unfold cp4 at hc ⊢; omega
                    have e3 : 128 + cp4 b c1 c2 c3 / 64 % 64 = c2 := by
                      unfold cp4 at hc ⊢; omega
                    have e4 : 128 + cp4 b c1 c2 c3 % 64 = c3 := by
                      unfold cp4 at hc ⊢; omega
                    rw [e1, e2, e3, e4]
                    rfl
                · rw [if_neg hc] at h; exact absurd h (by simp)
            · rw [if_neg h5] at h; exact absurd h (by simp)

theorem decodeOne_encodeChar (c : Nat) (tail : List Nat) (h : validCp c = true) :
    decodeOne (utf8EncodeChar c ++ tail) = some (c, tail) := by
  simp only [validCp, Bool.and_eq_true, Bool.not_eq_true', Bool.and_eq_false_iff,
    decide_eq_true_eq, decide_eq_false_iff_not, not_le] at h
  by_cases h1 : c < 128
  · have e : utf8EncodeChar c = [c] := by simp [utf8EncodeChar, h1]
    rw [e]
    simp only [List.cons_append, List.nil_append, decodeOne]
    rw [if_pos h1]
  · by_cases h2 : c < 2048
    · have e : utf8EncodeChar c = [192 + c / 64, 128 + c % 64] := by
        simp [utf8EncodeChar, h1, h2]
      rw [e]
      simp only [List.cons_append, List.nil_append, decodeOne]
      have hb1 : ¬(192 + c / 64 < 128) := by omega
      have hb2 : ¬(192 + c / 64 < 194) := by omega
      have hb3 : 192 + c / 64 < 224 := by omega
      rw [if_neg hb1, if_neg hb2, if_pos hb3]
      have hc1 : isCont (128 + c % 64) = true := by
        simp only [isCont, Bool.and_eq_true, decide_eq_true_eq]
        omega
      show (if isCont (128 + c % 64) = true
          then some (cp2 (192 + c / 64) (128 + c % 64), tail) else none) = some (c, tail)
      rw [if_pos hc1]
      have hcp : cp2 (192 + c / 64) (128 + c % 64) = c := by unfold cp2; omega
      rw [hcp]
    · by_cases h3 : c < 65536
      · have e : utf8EncodeChar c = [224 + c / 4096, 128 + c / 64 % 64, 128 + c % 64] := by
          simp [utf8EncodeChar, h1, h2, h3]
        rw [e]
        simp only [List.cons_append, List.nil_append, decodeOne]
        have hb1 : ¬(224 + c / 4096 < 128) := by omega
        have hb2 : ¬(224 + c / 4096 < 194) := by omega
        have hb3 : ¬(224 + c / 4096 < 224) := by omega
        have hb4 : 224 + c / 4096 < 240 := by omega
        rw [if_neg hb1, if_neg hb2, if_neg hb3, if_pos hb4]
        have hcp : cp3 (224 + c / 4096) (128 + c / 64 % 64) (128 + c % 64) = c := by
          unfold cp3; omega
        have hguard : (isCont (128 + c / 64 % 64) && isCont (128 + c % 64) &&
            isScalar3 (cp3 (224 + c / 4096) (128 + c / 64 % 64) (128 + c % 64))) = true := by
          rw [hcp]
          simp only [isCont, isScalar3, Bool.and_eq_true, Bool.not_eq_true',
            decide_eq_true_eq]
          refine ⟨⟨by omega, by omega⟩, by omega, ?_⟩
          simp only [Bool.and_eq_false_iff, decide_eq_false_iff_not, not_le]
          omega
        show (if (isCont (128 + c / 64 % 64) && isCont (128 + c % 64) &&
            isScalar3 (cp3 (224 + c / 4096) (128 + c / 64 % 64) (128 + c % 64))) = true
          then some (cp3 (224 + c / 4096) (128 + c / 64 % 64) (128 + c % 64), tail)
          else none) = some (c, tail)
        rw [if_pos hguard, hcp]
      · have e : utf8EncodeChar c
            = [240 + c / 262144, 128 + c / 4096 % 64, 128 + c / 64 % 64, 128 + c % 64] := by
          simp [utf8EncodeChar, h1, h2, h3]
        rw [e]
        simp only [List.cons_append, List.nil_append, decodeOne]
        have hb1 : ¬(240 + c / 262144 < 128) := by omega
        have hb2 : ¬(240 + c / 262144 < 194) := by omega
        have hb3 : ¬(240 + c / 262144 < 224) := by omega
        have hb4 : ¬(240 + c / 262144 < 240) := by omega
        have hb5 : 240 + c / 262144 < 245 := by omega
        rw [if_neg hb1, if_neg hb2, if_neg hb3, if_neg hb4, if_pos hb5]
        have hcp : cp4 (240 + c / 262144) (128 + c / 4096 % 64) (128 + c / 64 % 64)
            (128 + c % 64) = c := by unfold cp4; omega
        have hguard : (isCont (128 + c / 4096 % 64) && isCont (128 + c / 64 % 64) &&
            isCont (128 + c % 64) &&
            isSupp (cp4 (240 + c / 262144) (128 + c / 4096 % 64) (128 + c / 64 % 64)
              (128 + c % 64))) = true := by
          rw [hcp]
          simp only [isCont, isSupp, Bool.and_eq_true, decide_eq_true_eq]
          omega
        show (if (isCont (128 + c / 4096 % 64) && isCont (128 + c / 64 % 64) &&
            isCont (128 + c % 64) &&
            isSupp (cp4 (240 + c / 262144) (128 + c / 4096 % 64) (128 + c / 64 % 64)
              (128 + c % 64))) = true
          then some (cp4 (240 + c / 262144) (128 + c / 4096 % 64) (128 + c / 64 % 64)
            (128 + c % 64), tail)
          else none) = some (c, tail)
        rw [if_pos hguard, hcp]

theorem utf8DecodeAux_sound :
    ∀ fuel l cps, utf8DecodeAux fuel l = some cps →
      cps.all validCp = true ∧ utf8Encode cps = l := by
  intro fuel
  induction fuel with
  | zero =>
      intro l cps h
      simp only [utf8DecodeAux] at h
      by_cases hl : l = []
      · rw [if_pos hl] at h
        obtain rfl := Option.some.inj h
        exact ⟨rfl, hl.symm⟩
      · rw [if_neg hl] at h
        exact absurd h (by simp)
  | succ fuel ih =>
      intro l cps h
      simp only [utf8DecodeAux] at h
      by_cases hl : l = []
      · rw [if_pos hl] at h
        obtain rfl := Option.some.inj h
        exact ⟨rfl, hl.symm⟩
      · rw [if_neg hl] at h
        cases hd : decodeOne l with
        | none => rw [hd] at h; exact absurd h (by simp)
        | some p =>
            obtain ⟨cp, rem⟩ := p
            rw [hd] at h
            rw [Option.map_eq_some'] at h
            obtain ⟨cps2, hcps2, rfl⟩ := h
            have hone := decodeOne_sound l (cp, rem) hd
            have hrec := ih rem cps2 hcps2
            constructor
            · rw [List.all_cons, Bool.and_eq_true]
              exact ⟨hone.1, hrec.1⟩
            · rw [utf8Encode_cons, hrec.2]
              exact hone.2.symm

theorem utf8Decode_sound (l cps : List Nat) (h : utf8Decode l = some cps) :
    cps.all validCp = true ∧ utf8Encode cps = l :=
  utf8DecodeAux_sound l.length l cps h

theorem utf8Encode_length_ge : ∀ cps : List Nat, cps.length ≤ (utf8Encode cps).length := by
  intro cps
  induction cps with
  | nil => simp [utf8Encode]
  | cons c cs ih =>
      rw [utf8Encode_cons, List.length_append, List.length_cons]
      have h1 : 1 ≤ (utf8EncodeChar c).length := by
        have := utf8EncodeChar_ne_nil c
        cases he : utf8EncodeChar c with
        | nil => exact absurd he this
        | cons x xs => simp
      omega

theorem utf8DecodeAux_encode :
    ∀ cps fuel, cps.all validCp = true → cps.length ≤ fuel →
      utf8DecodeAux fuel (utf8Encode cps) = some cps := by
  intro cps
  induction cps with
  | nil =>
      intro fuel _ _
      cases fuel <;> simp [utf8DecodeAux, utf8Encode]
  | cons c cs ih =>
      intro fuel hv hlen
      obtain ⟨fuel, rfl⟩ : ∃ f, fuel = f + 1 :=
        ⟨fuel - 1, by simp at hlen; omega⟩
      rw [List.all_cons, Bool.and_eq_true] at hv
      have hne : utf8Encode (c :: cs) ≠ [] := by
        rw [utf8Encode_cons]
        intro hcontra
        exact utf8EncodeChar_ne_nil c (List.append_eq_nil.mp hcontra).1
      simp only [utf8DecodeAux]
      rw [if_neg hne]
      have hone : decodeOne (utf8Encode (c :: cs)) = some (c, utf8Encode cs) := by
        rw [utf8Encode_cons]
        exact decodeOne_encodeChar c _ hv.1
      rw [hone]
      show (utf8DecodeAux fuel (utf8Encode cs)).map (fun cps => c :: cps) = some (c :: cs)
      rw [ih fuel hv.2 (by simp at hlen; omega)]
      rfl

theorem utf8Decode_encode (cps : List Nat) (h : cps.all validCp = true) :
    utf8Decode (utf8Encode cps) = some cps :=
  utf8DecodeAux_encode cps (utf8Encode cps).length h (utf8Encode_length_ge cps)


/-- C8: the plain-text reader decodes the raw bytes as strict UTF-8:
it fails with the decode error exactly on the byte lists that are not
the UTF-8 encoding of a sequence of Unicode scalar values, and it
succeeds exactly on valid encodings, returning the encoded sequence. -/
theorem read_txt_utf8_spec (bs : List Nat) :
    (read_txt bs = Except.error ReadError.decodeError ↔ ¬ ValidUtf8 bs) ∧
    (∀ cps, read_txt bs = Except.ok cps ↔
      (cps.all validCp = true ∧ utf8Encode cps = bs)) := by
  constructor
  · constructor
    · intro herr hval
      obtain ⟨cps, hv, henc⟩ := hval
      have hdec : utf8Decode bs = some cps := henc ▸ utf8Decode_encode cps hv
      unfold read_txt at herr
      rw [hdec] at herr
      exact absurd herr (by simp)
    · intro hnv
      unfold read_txt
      cases hd : utf8Decode bs with
      | none => rfl
      | some cps =>
          exfalso
          apply hnv
          have hs := utf8Decode_sound bs cps hd
          exact ⟨cps, hs.1, hs.2⟩
  · intro cps
    constructor
    · intro hok
      unfold read_txt at hok
      cases hd : utf8Decode bs with
      | none => rw [hd] at hok; exact absurd hok (by simp)
      | some cps2 =>
          rw [hd] at hok
          have hinj := Except.ok.inj hok
          subst hinj
          exact utf8Decode_sound bs _ hd
    · rintro ⟨hv, henc⟩
      subst henc
      unfold read_txt
      rw [utf8Decode_encode cps hv]


theorem pyJoin_eq_empty_iff (ws : List String) (h : ∀ w ∈ ws, GoodTok w) :
    pyJoin ws = "" ↔ ws = [] := by
  constructor
  · intro he
    cases ws with
    | nil => rfl
    | cons w ws2 =>
        exfalso
        have hw := h w (by simp)
        have hnil : joinSpL (w.data :: ws2.map String.data) = [] :=
          congrArg String.data he
        cases ws2 with
        | nil => exact hw.1 hnil
        | cons w2 ws3 =>
            have h3 : w.data ++ ' ' :: joinSpL ((w2 :: ws3).map String.data) = [] :=
              hnil
            simp at h3
  · intro he
    subst he
    rfl

/-- C6: the renderer and the post-filter frequency table are computed
exactly when the filtered text has at least one token; with zero
tokens both steps are skipped (the process yields nothing) and nothing
else happens. -/
theorem renderer_skipped_iff_no_tokens (text : String) (useStd : Bool)
    (additional : List String) :
    (appProcess text useStd additional = none ↔
      pySplit (appFilteredText text useStd additional) = []) ∧
    (∀ t tbl, appProcess text useStd additional = some (t, tbl) ↔
      (t = appFilteredText text useStd additional ∧ pySplit t ≠ [] ∧
       tbl = word_count t)) := by
  have hkey : appFilteredText text useStd additional = "" ↔
      pySplit (appFilteredText text useStd additional) = [] := by
    constructor
    · intro he
      rw [he]
      rfl
    · intro hsp
      unfold appFilteredText at hsp ⊢
      rw [pySplit_filter_stopwords] at hsp
      rw [filter_stopwords_eq, hsp]
      rfl
  constructor
  · unfold appProcess
    by_cases he : appFilteredText text useStd additional = ""
    · rw [if_pos he]
      exact iff_of_true rfl (hkey.mp he)
    · rw [if_neg he]
      exact iff_of_false (by simp) (fun hsp => he (hkey.mpr hsp))
  · intro t tbl
    unfold appProcess
    by_cases he : appFilteredText text useStd additional = ""
    · rw [if_pos he]
      refine iff_of_false (by simp) ?_
      rintro ⟨rfl, hne, _⟩
      exact hne (hkey.mp he)
    · rw [if_neg he]
      constructor
      · intro hsome
        rw [Option.some.injEq, Prod.mk.injEq] at hsome
        obtain ⟨h1, h2⟩ := hsome
        subst h1
        exact ⟨rfl, fun hsp => he (hkey.mpr hsp), h2.symm⟩
      · rintro ⟨rfl, hne, rfl⟩
        rfl

/-- C7: the MIME dispatch halts (error message, `st.stop()`, so no
extraction, counting or rendering) exactly on the declared types other
than plain text, PDF and the docx type; in particular on
"application/zip". -/
theorem mime_dispatch_unsupported_halts :
    (∀ t : String,
      mimeDispatch t = Dispatch.halted ↔
        ¬(t = "text/plain" ∨ t = "application/pdf" ∨
          t = "application/vnd.openxmlformats-officedocument.wordprocessingml.document")) ∧
    mimeDispatch "application/zip" = Dispatch.halted := by
  constructor
  · intro t
    unfold mimeDispatch
    by_cases h1 : t = "text/plain"
    · rw [if_pos h1]
      exact iff_of_false (by simp) (fun hnd => hnd (Or.inl h1))
    · rw [if_neg h1]
      by_cases h2 : t = "application/pdf"
      · rw [if_pos h2]
        exact iff_of_false (by simp) (fun hnd => hnd (Or.inr (Or.inl h2)))
      · rw [if_neg h2]
        by_cases h3 : t =
            "application/vnd.openxmlformats-officedocument.wordprocessingml.document"
        · rw [if_pos h3]
          exact iff_of_false (by simp) (fun hnd => hnd (Or.inr (Or.inr h3)))
        · rw [if_neg h3]
          exact iff_of_true rfl (by simp [h1, h2, h3])
  · decide

theorem natDigitsRev_ofDigits : ∀ fuel n, n ≤ fuel →
    ofDigitsRev (natDigitsRev fuel n) = n := by
  intro fuel
  induction fuel with
  | zero =>
      intro n hn
      simp only [natDigitsRev, ofDigitsRev]
      omega
  | succ f ih =>
      intro n hn
      simp only [natDigitsRev]
      by_cases h0 : n = 0
      · rw [if_pos h0]
        simp [ofDigitsRev]
        omega
      · rw [if_neg h0]
        simp only [ofDigitsRev]
        rw [ih (n / 10) (by omega)]
        omega

theorem natDigitsRev_lt : ∀ fuel n d, d ∈ natDigitsRev fuel n → d < 10 := by
  intro fuel
  induction fuel with
  | zero => intro n d hd; simp [natDigitsRev] at hd
  | succ f ih =>
      intro n d hd
      simp only [natDigitsRev] at hd
      by_cases h0 : n = 0
      · rw [if_pos h0] at hd; simp at hd
      · rw [if_neg h0] at hd
        rcases List.mem_cons.mp hd with rfl | hd
        · omega
        · exact ih _ d hd

theorem strToNatAux_append : ∀ (xs ys : List Char) (acc : Nat),
    strToNatAux (xs ++ ys) acc =
      match strToNatAux xs acc with
      | some v => strToNatAux ys v
      | none => none := by
  intro xs
  induction xs with
  | nil => intro ys acc; rfl
  | cons c cs ih =>
      intro ys acc
      simp only [List.cons_append, strToNatAux]
      by_cases hc : (48 ≤ c.toNat && c.toNat ≤ 57) = true
      · rw [if_pos hc, if_pos hc]
        exact ih ys (acc * 10 + (c.toNat - 48))
      · rw [if_neg hc, if_neg hc]

theorem digitChar_toNat : ∀ d, d < 10 → (digitChar d).toNat = 48 + d := by
  intro d hd
  interval_cases d <;> decide

theorem strToNatAux_digits :
    ∀ (D : List Nat) (acc : Nat), (∀ d ∈ D, d < 10) →
      strToNatAux (D.reverse.map digitChar) acc
        = some (acc * 10 ^ D.length + ofDigitsRev D) := by
  intro D
  induction D with
  | nil => intro acc _; simp [strToNatAux, ofDigitsRev]
  | cons d D ih =>
      intro acc hD
      have hd : d < 10 := hD d (by simp)
      have hD2 : ∀ x ∈ D, x < 10 := fun x hx => hD x (by simp [hx])
      rw [List.reverse_cons, List.map_append, strToNatAux_append, ih acc hD2]
      have htn := digitChar_toNat d hd
      simp only [List.map_cons, List.map_nil, strToNatAux, htn]
      have hcond : (48 ≤ 48 + d && 48 + d ≤ 57) = true := by
        simp only [Bool.and_eq_true, decide_eq_true_eq]
        omega
      rw [if_pos hcond]
      simp only [ofDigitsRev, List.length_cons]
      congr 1
      rw [pow_succ]
      ring_nf
      omega

theorem natToStrL_ne_nil : ∀ n, natToStrL n ≠ [] := by
  intro n
  unfold natToStrL
  by_cases h0 : n = 0
  · rw [if_pos h0]; simp
  · rw [if_neg h0]
    obtain ⟨m, rfl⟩ : ∃ m, n = m + 1 := ⟨n - 1, by omega⟩
    simp only [natDigitsRev]
    rw [if_neg h0]
    simp

theorem natToStrL_digits : ∀ n c, c ∈ natToStrL n →
    48 ≤ c.toNat ∧ c.toNat ≤ 57 := by
  intro n c hc
  unfold natToStrL at hc
  by_cases h0 : n = 0
  · rw [if_pos h0] at hc
    simp at hc
    subst hc
    constructor <;> decide
  · rw [if_neg h0] at hc
    obtain ⟨d, hd, rfl⟩ := List.mem_map.mp hc
    have hlt : d < 10 := natDigitsRev_lt n n d (List.mem_reverse.mp hd)
    rw [digitChar_toNat d hlt]
    omega

theorem strToNat_natToStr : ∀ n, strToNat (String.mk (natToStrL n)) = some n := by
  intro n
  by_cases h0 : n = 0
  · subst h0; decide
  · show (if (String.mk (natToStrL n)).data = [] then none
        else strToNatAux (String.mk (natToStrL n)).data 0) = some n
    have hne : (String.mk (natToStrL n)).data ≠ [] := natToStrL_ne_nil n
    rw [if_neg hne]
    show strToNatAux (natToStrL n) 0 = some n
    unfold natToStrL
    rw [if_neg h0]
    rw [strToNatAux_digits _ 0 (fun d hd => natDigitsRev_lt n n d hd)]
    rw [natDigitsRev_ofDigits n n (Nat.le_refl n)]
    simp

theorem takeWhile_append_all (p : Char → Bool) :
    ∀ (w l : List Char), (∀ c ∈ w, p c = true) →
      (w ++ l).takeWhile p = w ++ l.takeWhile p := by
  intro w
  induction w with
  | nil => intro l _; rfl
  | cons c cs ih =>
      intro l hw
      have hc : p c = true := hw c (by simp)
      simp only [List.cons_append, List.takeWhile_cons, hc, if_true]
      rw [ih l (fun d hd => hw d (by simp [hd]))]

theorem dropWhile_append_all (p : Char → Bool) :
    ∀ (w l : List Char), (∀ c ∈ w, p c = true) →
      (w ++ l).dropWhile p = l.dropWhile p := by
  intro w
  induction w with
  | nil => intro l _; rfl
  | cons c cs ih =>
      intro l hw
      have hc : p c = true := hw c (by simp)
      simp only [List.cons_append, List.dropWhile_cons, hc, if_true]
      exact ih l (fun d hd => hw d (by simp [hd]))

theorem csvEscapeQuotesL_cons_other (c : Char) (cs : List Char) (hc : c ≠ '"') :
    csvEscapeQuotesL (c :: cs) = c :: csvEscapeQuotesL cs := by
  simp [csvEscapeQuotesL, hc]

theorem parseQuotedTail_cons_quote_quote (rest : List Char) :
    parseQuotedTail ('"' :: '"' :: rest)
      = (parseQuotedTail rest).map (fun p => ('"' :: p.1, p.2)) := by
  simp [parseQuotedTail]

theorem parseQuotedTail_cons_quote_other (c : Char) (rest : List Char) (hc : c ≠ '"') :
    parseQuotedTail ('"' :: c :: rest) = some ([], c :: rest) := by
  simp [parseQuotedTail, hc]

theorem parseQuotedTail_cons_other (c : Char) (rest : List Char) (hc : c ≠ '"') :
    parseQuotedTail (c :: rest)
      = (parseQuotedTail rest).map (fun p => (c :: p.1, p.2)) := by
  cases rest with
  | nil => simp [parseQuotedTail, hc]
  | cons c2 rest2 => simp [parseQuotedTail, hc]

theorem parseQuotedTail_escape :
    ∀ (w rest : List Char), (∀ c rest2, rest = c :: rest2 → c ≠ '"') →
      parseQuotedTail (csvEscapeQuotesL w ++ '"' :: rest) = some (w, rest) := by
  intro w
  induction w with
  | nil =>
      intro rest hrest
      show parseQuotedTail ('"' :: rest) = some ([], rest)
      cases rest with
      | nil => rfl
      | cons c2 rest2 =>
          exact parseQuotedTail_cons_quote_other c2 rest2 (hrest c2 rest2 rfl)
  | cons c cs ih =>
      intro rest hrest
      by_cases hc : c = '"'
      · subst hc
        have he : csvEscapeQuotesL ('"' :: cs) = '"' :: '"' :: csvEscapeQuotesL cs := by
          simp [csvEscapeQuotesL]
        rw [he, List.cons_append, List.cons_append,
          parseQuotedTail_cons_quote_quote, ih rest hrest]
        rfl
      · rw [csvEscapeQuotesL_cons_other c cs hc, List.cons_append,
          parseQuotedTail_cons_other c _ hc, ih rest hrest]
        rfl

theorem parseField_quote (X : List Char) :
    parseField ('"' :: X) = parseQuotedTail X := by
  simp [parseField]

theorem parseField_bare (c : Char) (X : List Char) (hc : c ≠ '"') :
    parseField (c :: X) = some ((c :: X).takeWhile (fun d => !csvSepChar d),
      (c :: X).dropWhile (fun d => !csvSepChar d)) := by
  simp [parseField, hc]

theorem not_needsQuote_clean (w : String) (hq : csvNeedsQuote w = false) :
    ∀ c ∈ w.data, (!csvSepChar c) = true ∧ c ≠ '"' := by
  intro c hc
  unfold csvNeedsQuote at hq
  have hall := List.any_eq_false.mp hq c hc
  have hallb : (decide (c = ',') || decide (c = '"') || decide (c = '\n') ||
      decide (c = '\x0d')) = false := Bool.eq_false_iff.mpr hall
  simp only [Bool.or_eq_false_iff, decide_eq_false_iff_not] at hallb
  constructor
  · simp only [csvSepChar, Bool.not_eq_true', Bool.or_eq_false_iff,
      decide_eq_false_iff_not]
    exact ⟨⟨hallb.1.1.1, hallb.1.2⟩, hallb.2⟩
  · exact hallb.1.1.2

theorem parseField_csvField (w : String) (d : Char) (rest : List Char)
    (hd : csvSepChar d = true) :
    parseField (csvField w ++ d :: rest) = some (w.data, d :: rest) := by
  have hdq : d ≠ '"' := by
    intro h
    subst h
    exact absurd hd (by decide)
  unfold csvField
  by_cases hq : csvNeedsQuote w
  · rw [if_pos hq]
    have hsh : ('"' :: (csvEscapeQuotesL w.data ++ ['"'])) ++ d :: rest
        = '"' :: (csvEscapeQuotesL w.data ++ '"' :: (d :: rest)) := by
      simp
    rw [hsh, parseField_quote]
    refine parseQuotedTail_escape w.data (d :: rest) ?_
    intro c r2 hcr
    cases hcr
    exact hdq
  · rw [if_neg hq]
    have hclean := not_needsQuote_clean w (Bool.eq_false_iff.mpr hq)
    cases hwd : w.data with
    | nil =>
        simp only [List.nil_append]
        rw [parseField_bare d rest hdq]
        simp [List.takeWhile_cons, List.dropWhile_cons, hd]
    | cons c0 w2 =>
        have hc0 : c0 ≠ '"' := (hclean c0 (by rw [hwd]; simp)).2
        simp only [List.cons_append]
        rw [parseField_bare c0 (w2 ++ d :: rest) hc0]
        rw [show c0 :: (w2 ++ d :: rest) = (c0 :: w2) ++ d :: rest from rfl]
        have hcw : ∀ c ∈ c0 :: w2, (fun x => !csvSepChar x) c = true := by
          intro c hcmem
          have : c ∈ w.data := by rw [hwd]; exact hcmem
          exact (hclean c this).1
        rw [takeWhile_append_all _ (c0 :: w2) (d :: rest) hcw,
          dropWhile_append_all _ (c0 :: w2) (d :: rest) hcw]
        simp [List.takeWhile_cons, List.dropWhile_cons, hd]

theorem digit_clean (c : Char) (h : 48 ≤ c.toNat ∧ c.toNat ≤ 57) :
    (!csvSepChar c) = true ∧ c ≠ '"' := by
  have h44 : (',' : Char).toNat = 44 := by decide
  have h10 : ('\n' : Char).toNat = 10 := by decide
  have h13 : ('\r' : Char).toNat = 13 := by decide
  have h34 : ('"' : Char).toNat = 34 := by decide
  constructor
  · simp only [csvSepChar, Bool.not_eq_true', Bool.or_eq_false_iff,
      decide_eq_false_iff_not]
    refine ⟨⟨?_, ?_⟩, ?_⟩ <;> intro hcontra <;> subst hcontra <;> omega
  · intro hcontra
    subst hcontra
    omega

theorem parseField_digits (n : Nat) (rest : List Char) :
    parseField (natToStrL n ++ '\n' :: rest) = some (natToStrL n, '\n' :: rest) := by
  have hne := natToStrL_ne_nil n
  have hdig := natToStrL_digits n
  cases hnd : natToStrL n with
  | nil => exact absurd hnd hne
  | cons c0 w2 =>
      have hc0 : c0 ≠ '"' := by
        refine (digit_clean c0 ?_).2
        refine hdig c0 ?_
        rw [hnd]
        simp
      simp only [List.cons_append]
      rw [parseField_bare c0 (w2 ++ '\n' :: rest) hc0]
      rw [show c0 :: (w2 ++ '\n' :: rest) = (c0 :: w2) ++ '\n' :: rest from rfl]
      have hcw : ∀ c ∈ c0 :: w2, (fun x => !csvSepChar x) c = true := by
        intro c hcmem
        have hmem : c ∈ natToStrL n := by rw [hnd]; exact hcmem
        exact (digit_clean c (hdig c hmem)).1
      rw [takeWhile_append_all _ (c0 :: w2) ('\n' :: rest) hcw,
        dropWhile_append_all _ (c0 :: w2) ('\n' :: rest) hcw]
      have hnl : csvSepChar '\n' = true := by decide
      simp [List.takeWhile_cons, List.dropWhile_cons, hnl]

theorem parseRecord_row (k : Nat) (w : String) (n : Nat) (rest : List Char) :
    parseRecord (k + 2) (csvRow (w, n) ++ rest)
      = some ([w, String.mk (natToStrL n)], rest) := by
  have hshape : csvRow (w, n) ++ rest
      = csvField w ++ ',' :: (natToStrL n ++ '\n' :: rest) := by
    simp [csvRow]
  rw [hshape]
  have h1 := parseField_csvField w ',' (natToStrL n ++ '\n' :: rest) (by decide)
  have h2 := parseField_digits n rest
  show parseRecord (k + 1 + 1) _ = _
  simp only [parseRecord, h1, h2, stringMk_data]
  rfl

theorem parseRecord_header (k : Nat) (rest : List Char) :
    parseRecord (k + 2) ("Word,Count\n".data ++ rest)
      = some (["Word", "Count"], rest) := by
  have h1 : parseField ("Word,Count\n".data ++ rest)
      = some (['W', 'o', 'r', 'd'], ',' :: ('C' :: 'o' :: 'u' :: 'n' :: 't' :: '\n' :: rest)) := by
    show parseField ('W' :: 'o' :: 'r' :: 'd' :: ',' ::
      'C' :: 'o' :: 'u' :: 'n' :: 't' :: '\n' :: rest) = _
    rw [parseField_bare 'W' _ (by decide)]
    simp [List.takeWhile_cons, List.dropWhile_cons, csvSepChar]
  have h2 : parseField ('C' :: 'o' :: 'u' :: 'n' :: 't' :: '\n' :: rest)
      = some (['C', 'o', 'u', 'n', 't'], '\n' :: rest) := by
    rw [parseField_bare 'C' _ (by decide)]
    simp [List.takeWhile_cons, List.dropWhile_cons, csvSepChar]
  show parseRecord (k + 1 + 1) _ = _
  simp only [parseRecord, h1, h2]
  have hW : String.mk ['W', 'o', 'r', 'd'] = "Word" := by decide
  have hC : String.mk ['C', 'o', 'u', 'n', 't'] = "Count" := by decide
  rw [hW, hC]
  rfl

theorem csvRow_length_ge (p : String × Nat) : 2 ≤ (csvRow p).length := by
  simp [csvRow]
  omega

theorem csvRow_ne_nil (p : String × Nat) : csvRow p ≠ [] := by
  intro h
  have := csvRow_length_ge p
  rw [h] at this
  simp at this

theorem rows_flatten_length (tbl : List (String × Nat)) :
    tbl.length ≤ ((tbl.map csvRow).flatten).length := by
  induction tbl with
  | nil => simp
  | cons p tbl ih =>
      simp only [List.map_cons, List.flatten_cons, List.length_append,
        List.length_cons]
      have := csvRow_length_ge p
      omega

theorem parseRecordsAux_rows :
    ∀ (tbl : List (String × Nat)) (fuel : Nat), tbl.length ≤ fuel →
      parseRecordsAux fuel ((tbl.map csvRow).flatten)
        = some (tbl.map (fun p => [p.1, String.mk (natToStrL p.2)])) := by
  intro tbl
  induction tbl with
  | nil =>
      intro fuel _
      cases fuel <;> simp [parseRecordsAux]
  | cons p tbl ih =>
      intro fuel hlen
      obtain ⟨f, rfl⟩ : ∃ f, fuel = f + 1 := ⟨fuel - 1, by simp at hlen; omega⟩
      simp only [List.map_cons, List.flatten_cons]
      have hne : csvRow p ++ (tbl.map csvRow).flatten ≠ [] := by
        intro h
        exact csvRow_ne_nil p (List.append_eq_nil.mp h).1
      simp only [parseRecordsAux]
      rw [if_neg hne]
      obtain ⟨k, hk⟩ : ∃ k, (csvRow p ++ (tbl.map csvRow).flatten).length = k + 2 := by
        refine ⟨(csvRow p ++ (tbl.map csvRow).flatten).length - 2, ?_⟩
        have := csvRow_length_ge p
        simp only [List.length_append]
        omega
      rw [hk]
      have hrow : csvRow p = csvRow (p.1, p.2) := by rfl
      rw [hrow, parseRecord_row k p.1 p.2 ((tbl.map csvRow).flatten)]
      show (parseRecordsAux f ((tbl.map csvRow).flatten)).map
          (fun rs => [p.1, String.mk (natToStrL p.2)] :: rs) = _
      rw [ih f (by simp at hlen; omega)]
      rfl

theorem csvTableOfRecords_rows :
    ∀ tbl : List (String × Nat),
      csvTableOfRecords (tbl.map (fun p => [p.1, String.mk (natToStrL p.2)]))
        = some tbl := by
  intro tbl
  induction tbl with
  | nil => rfl
  | cons p tbl ih =>
      simp only [List.map_cons, csvTableOfRecords, strToNat_natToStr, ih]

theorem parseCsvTable_to_csv (tbl : List (String × Nat)) :
    parseCsvTable (to_csv tbl) = some tbl := by
  have h11 : "Word,Count\n".data.length = 11 := by decide
  have hp : parseCsv (to_csv tbl)
      = some (["Word", "Count"] :: tbl.map (fun p => [p.1, String.mk (natToStrL p.2)])) := by
    show parseRecordsAux ("Word,Count\n".data ++ (tbl.map csvRow).flatten).length
        ("Word,Count\n".data ++ (tbl.map csvRow).flatten) = _
    obtain ⟨m, hm, hmge⟩ : ∃ m, ("Word,Count\n".data ++ (tbl.map csvRow).flatten).length
        = m + 1 ∧ tbl.length ≤ m := by
      refine ⟨("Word,Count\n".data ++ (tbl.map csvRow).flatten).length - 1, ?_, ?_⟩
      · simp only [List.length_append, h11]
        omega
      · have := rows_flatten_length tbl
        simp only [List.length_append, h11]
        omega
    rw [hm]
    have hne : "Word,Count\n".data ++ (tbl.map csvRow).flatten ≠ [] := by
      intro h
      have hl := congrArg List.length h
      simp only [List.length_append, h11, List.length_nil] at hl
      omega
    simp only [parseRecordsAux]
    rw [if_neg hne]
    obtain ⟨k, hk⟩ : ∃ k, ("Word,Count\n".data ++ (tbl.map csvRow).flatten).length
        = k + 2 := by
      refine ⟨("Word,Count\n".data ++ (tbl.map csvRow).flatten).length - 2, ?_⟩
      simp only [List.length_append, h11]
      omega
    rw [hk, parseRecord_header k ((tbl.map csvRow).flatten)]
    show (parseRecordsAux m ((tbl.map csvRow).flatten)).map
        (fun rs => ["Word", "Count"] :: rs) = _
    rw [parseRecordsAux_rows tbl m hmge]
    rfl
  unfold parseCsvTable
  rw [hp]
  show csvTableOfRecords (tbl.map (fun p => [p.1, String.mk (natToStrL p.2)]))
      = some tbl
  exact csvTableOfRecords_rows tbl

/-- C9: CSV export of a frequency table has header `Word,Count` and
one row per table entry in table order (descending by count for the
tables the app exports), with minimal CSV quoting, and it round-trips:
parsing the exported CSV reproduces the table exactly. -/
theorem csv_export_roundtrip :
    (∀ tbl : List (String × Nat), parseCsvTable (to_csv tbl) = some tbl) ∧
    (∀ t : String, (word_count t).Pairwise (fun a b => b.2 ≤ a.2)) := by
  constructor
  · exact parseCsvTable_to_csv
  · intro t
    exact sortByCountDesc_sorted _
